import Mathlib

/-
Verification of gofencefmt (src/main.go): a pipeline that reformats Go code
fragments found in Markdown code fences.  Text is modelled as `List Char`
(one element per byte/rune of the Go string; all text the pipeline inspects
is ASCII, where the two coincide).  The external parser/formatter
(package dst/decorator) is modelled as an abstract capability, as the spec
treats it: an external collaborator consumed through two operations.
-/

namespace Gofencefmt

/-- Character class of Go's unicode.IsSpace: the Unicode white-space code
points, matching src/main.go's uses of unicode.IsSpace. -/
def goIsSpace (c : Char) : Bool :=
  let v := c.toNat
  v == 9 || v == 10 || v == 11 || v == 12 || v == 13 || v == 32 ||
    v == 0x85 || v == 0xA0 || v == 0x1680 ||
    (decide (0x2000 ≤ v) && decide (v ≤ 0x200A)) ||
    v == 0x2028 || v == 0x2029 || v == 0x202F || v == 0x205F || v == 0x3000

/-- bufio's dropCR: drop a single terminal carriage return from a scanned
line, as bufio.ScanLines does in the Go standard library. -/
def dropCR (l : List Char) : List Char :=
  if l.getLast? = some '\r' then l.dropLast else l

/-- Accumulator form of line splitting, mirroring bufio.Scanner with
bufio.ScanLines: lines are the maximal '\n'-free pieces, each with a
terminal '\r' dropped; input ending in '\n' produces no empty final line;
empty input produces no lines. -/
def splitLinesAux : List Char → List Char → List (List Char)
  | [], [] => []
  | [], acc => [dropCR acc.reverse]
  | c :: cs, acc =>
    if c = '\n' then dropCR acc.reverse :: splitLinesAux cs []
    else splitLinesAux cs (c :: acc)

/-- The sequence of lines bufio.Scanner yields over the given text. -/
def splitLines (s : List Char) : List (List Char) :=
  splitLinesAux s []

/-- Width of the leading whitespace run of a line: the per-line count the
loop inside minIndent (src/main.go lines 67-73) computes. -/
def leadingWS (l : List Char) : Nat :=
  (l.takeWhile goIsSpace).length

/-- The loop of minIndent (src/main.go lines 62-83): state `none` models the
sentinel n = -1, `some n` the current minimum.  Truly empty lines are
skipped; a zero-indent line short-circuits to 0; the final state (or the
failsafe 0) is returned. -/
def minIndentLines : List (List Char) → Option Nat → Nat
  | [], none => 0
  | [], some n => n
  | l :: ls, st =>
    if l = [] then minIndentLines ls st
    else if leadingWS l = 0 then 0
    else
      match st with
      | none => minIndentLines ls (some (leadingWS l))
      | some n => minIndentLines ls (some (min (leadingWS l) n))

/-- minIndent from src/main.go lines 58-88. -/
def minIndent (s : List Char) : Nat :=
  minIndentLines (splitLines s) none

/-- Result of one invocation of the external parse capability
(decorator.Parse): a structured value, an ordinary error, or a runtime
fault (panic) raised inside the capability. -/
inductive PResult (α : Type) where
  | ok : α → PResult α
  | err : PResult α
  | fault : PResult α
deriving DecidableEq

/-- toAST from src/main.go lines 90-104: invoke the capability; a recover
handler converts a fault into an ordinary error, so the caller observes
only `some tree` or `none`. -/
def toAST {α : Type} (cap : List Char → PResult α) (s : List Char) : Option α :=
  match cap s with
  | .ok f => some f
  | .err => none
  | .fault => none

/-- The BEGIN sentinel line content. -/
def beginMarker : List Char := "// BEGIN".toList

/-- The END sentinel line content. -/
def endMarker : List Char := "// END".toList

/-- The wrapped text built by parseAsWholeProgram (src/main.go 108-118):
marker lines around the raw program text, no scaffolding. -/
def wrapAsWholeProgram (prg : List Char) : List Char :=
  "// BEGIN\n".toList ++ prg ++ "// END\n".toList

/-- The wrapped text built by parseAsTopLevelIdentifiers (src/main.go
120-132): package clause, blank line, then the marked fragment. -/
def wrapAsTopLevelIdentifiers (prg : List Char) : List Char :=
  "package main\n\n// BEGIN\n".toList ++ prg ++ "// END\n".toList

/-- The wrapped text built by parseAsFunction (src/main.go 134-148):
package clause, blank line, a synthetic enclosing function, then the
marked fragment, then the closing brace. -/
def wrapAsFunction (prg : List Char) : List Char :=
  "package main\n\nfunc init() \x7b\n// BEGIN\n".toList ++ prg ++
    "// END\n\x7d\n".toList

/-- parse from src/main.go lines 155-173: try the three wrappings in order,
return the first accepted tree together with minIndent of the raw text and
the synthetic indent (0, 0, or 1); `none` models errGaveUp when all three
fail. -/
def parse {α : Type} (cap : List Char → PResult α) (prg : List Char) :
    Option (α × Nat × Nat) :=
  match toAST cap (wrapAsWholeProgram prg) with
  | some f => some (f, minIndent prg, 0)
  | none =>
    match toAST cap (wrapAsTopLevelIdentifiers prg) with
    | some f => some (f, minIndent prg, 0)
    | none =>
      match toAST cap (wrapAsFunction prg) with
      | some f => some (f, minIndent prg, 1)
      | none => none

/-- trimTrailingSpace from src/main.go lines 175-178 (also the behavior of
strings.TrimRightFunc with unicode.IsSpace): remove the maximal trailing
whitespace run. -/
def trimTrailingSpace (l : List Char) : List Char :=
  (l.reverse.dropWhile goIsSpace).reverse

/-- strings.TrimSpace: remove leading and trailing whitespace. -/
def trimSpace (l : List Char) : List Char :=
  trimTrailingSpace (l.dropWhile goIsSpace)

/-- seekToBeginning from src/main.go lines 182-190: advance the scanner
past the first line whose trimmed text is the BEGIN marker, returning the
remaining lines, or `none` (errNoBeginning) if no such line exists. -/
def seekToBeginning : List (List Char) → Option (List (List Char))
  | [] => none
  | l :: ls =>
    if trimSpace l = beginMarker then some ls else seekToBeginning ls

/-- strings.TrimSuffix: drop the suffix when present, else return the text
unchanged. -/
def trimSuffix (l suffix : List Char) : List Char :=
  if suffix.isSuffixOf l then l.take (l.length - suffix.length) else l

/-- readLinesUntilEnd from src/main.go lines 194-213, as the list of lines
the iterator yields with a nil error before stopping: a line trimming to
the END marker yields one final empty line; a line merely suffixed by the
marker yields the line with the suffix stripped; exhaustion without either
is errNoEnd, modelled as `none`. -/
def readLinesUntilEnd : List (List Char) → Option (List (List Char))
  | [] => none
  | l :: ls =>
    if trimSpace l = endMarker then some [[]]
    else if endMarker.isSuffixOf l then some [trimSuffix l endMarker]
    else
      match readLinesUntilEnd ls with
      | none => none
      | some body => some (l :: body)

/-- isExclusivelyWhitespace from src/main.go lines 215-222. -/
def isExclusivelyWhitespace (l : List Char) : Bool :=
  l.all goIsSpace

/-- The terminal failures run can report (src/main.go 224-259), one per
return site: the parse ladder exhausted (or input unreadable), the render
step failing, and the two missing-marker conditions. -/
inductive RunError where
  | parsing : RunError
  | formatting : RunError
  | noBeginning : RunError
  | noEnd : RunError
deriving DecidableEq

/-- The external collaborator of spec section 6: the parse capability and
the render capability (decorator.Parse / decorator.Fprint). -/
structure FmtCap (α : Type) where
  parse : List Char → PResult α
  render : α → Option (List Char)

/-- The bytes run's loop appends to its internal buffer for one retained
body line (src/main.go 243-252): the document indent then a newline for a
whitespace-only line, otherwise the document indent, the line with its
first n elements removed, and a newline. -/
def emitLine (c n : Nat) (l : List Char) : List Char :=
  if isExclusivelyWhitespace l then List.replicate c ' ' ++ ['\n']
  else List.replicate c ' ' ++ l.drop n ++ ['\n']

/-- The whole internal buffer after run's loop, folded exactly as the Go
loop appends. -/
def emitBody (c n : Nat) (body : List (List Char)) : List Char :=
  body.foldl (fun acc l => acc ++ emitLine c n l) []

/-- The marker-seeking and line-rewriting stage of run (src/main.go
233-254), applied to the canonically formatted text with document indent c
and synthetic indent n. -/
def reassemble (c n : Nat) (formatted : List Char) :
    Except RunError (List Char) :=
  match seekToBeginning (splitLines formatted) with
  | none => .error .noBeginning
  | some rest =>
    match readLinesUntilEnd rest with
    | none => .error .noEnd
    | some body => .ok (trimTrailingSpace (emitBody c n body))

/-- run from src/main.go lines 224-259, up to the final copy to the output
writer: parse, render, reassemble. -/
def run {α : Type} (cap : FmtCap α) (input : List Char) :
    Except RunError (List Char) :=
  match parse cap.parse input with
  | none => .error .parsing
  | some (f, c, n) =>
    match cap.render f with
    | none => .error .formatting
    | some formatted => reassemble c n formatted

/-- run together with its output writer: in src/main.go the only write to
w is the single io.Copy at line 255, executed after every failure check,
so a failing run leaves the writer exactly as it was. -/
def runWriter {α : Type} (cap : FmtCap α) (input w : List Char) :
    List Char × Option RunError :=
  match run cap input with
  | .error e => (w, some e)
  | .ok out => (w ++ out, none)

/-- The minimum of a list of widths as the spec words it for the Prober:
0 when there is no non-blank line, otherwise the minimum over the
non-blank lines.  Written from spec sections 3 and 4.1, to be compared
with the code's minIndent.  nonblankWidths lists the leading-whitespace
widths of the lines that are not truly empty. -/
def nonblankWidths (ls : List (List Char)) : List Nat :=
  (ls.filter (fun l => !l.isEmpty)).map leadingWS

/-- DocumentIndent over a line list, as the spec words it. -/
def minIndentLinesSpec (ls : List (List Char)) : Nat :=
  match nonblankWidths ls with
  | [] => 0
  | w :: ws => ws.foldl min w

/-- DocumentIndent as the spec describes it, over the lines of the raw
fragment. -/
def minIndentSpec (s : List Char) : Nat :=
  minIndentLinesSpec (splitLines s)

/-- The fragment-content part of the emitted line for a retained body
line: empty for a whitespace-only line, otherwise the line with its first
n elements removed. -/
def coreOf (n : Nat) (l : List Char) : List Char :=
  if isExclusivelyWhitespace l then [] else l.drop n

/-- The lines of run's final output, computed from the retained body lines
given in reverse order: trailing lines whose content is pure whitespace
disappear under the final trim, the last surviving line loses its trailing
whitespace, and every earlier line is emitted whole (modulo the scanner's
dropCR when the output is split into lines again). -/
def finalLinesRev (c n : Nat) : List (List Char) → List (List Char)
  | [] => []
  | b :: bs =>
    if (coreOf n b).all goIsSpace then finalLinesRev c n bs
    else
      (List.replicate c ' ' ++ trimTrailingSpace (coreOf n b)) ::
        bs.map (fun b2 => dropCR (List.replicate c ' ' ++ coreOf n b2))

/-- A one-statement fragment used to exercise the pipeline concretely. -/
def tIn : List Char := "x := 1\n".toList

/-- A parse capability accepting exactly the function-wrapped form of tIn. -/
def capFn : List Char → PResult Unit :=
  fun s => if s = wrapAsFunction tIn then PResult.ok () else PResult.err

/-- A parse capability that faults on everything except the
top-level-identifiers wrapping of tIn, which it accepts. -/
def capMix : List Char → PResult Unit :=
  fun s => if s = wrapAsTopLevelIdentifiers tIn then PResult.ok () else PResult.fault

/-- A collaborator whose parse capability rejects everything. -/
def capErrAll : FmtCap Unit :=
  ⟨fun _ => PResult.err, fun _ => none⟩

/-- A collaborator that accepts the whole-program wrapping of tIn but
renders text with no BEGIN marker line. -/
def capNoBegin : FmtCap Unit :=
  ⟨fun s => if s = wrapAsWholeProgram tIn then PResult.ok () else PResult.err,
   fun _ => some "nothing here\n".toList⟩

/-- A collaborator that accepts the whole-program wrapping of tIn but
renders text whose END marker line is missing. -/
def capNoEnd : FmtCap Unit :=
  ⟨fun s => if s = wrapAsWholeProgram tIn then PResult.ok () else PResult.err,
   fun _ => some "// BEGIN\nstuff\n".toList⟩

/-- A fragment whose own second line is a // END comment. -/
def exInput : List Char := "x := 1\n// END\ny := 2".toList

/-- The canonical formatting of the function-wrapped exInput, as gofmt
lays it out: the fragment's own // END line appears, tab-indented, before
the synthetic one. -/
def exFormatted : List Char :=
  ("package main\n\nfunc init() \x7b\n\t// BEGIN\n\tx := 1\n\t// END\n" ++
    "\ty := 2\n\t// END\n\x7d\n").toList

/-- A collaborator accepting exactly the function-wrapped exInput and
rendering exFormatted. -/
def exCap : FmtCap Unit :=
  ⟨fun s => if s = wrapAsFunction exInput then PResult.ok () else PResult.err,
   fun _ => some exFormatted⟩

/-- A zero-indent one-line fragment for the round-trip scenario. -/
def rtInput : List Char := "x := 1".toList

/-- rtInput pre-indented by three columns. -/
def rtInputInd : List Char := "   x := 1".toList

/-- The canonical formatting of the function-wrapped rtInputInd. -/
def rtFormatted : List Char :=
  "package main\n\nfunc init() \x7b\n\t// BEGIN\n\tx := 1\n\t// END\n\x7d\n".toList

/-- A collaborator accepting exactly the function-wrapped rtInputInd and
rendering rtFormatted. -/
def rtCap : FmtCap Unit :=
  ⟨fun s => if s = wrapAsFunction rtInputInd then PResult.ok () else PResult.err,
   fun _ => some rtFormatted⟩

theorem foldl_min_zero (ws : List Nat) : ws.foldl min 0 = 0 := by
  induction ws with
  | nil => rfl
  | cons x xs ih => simpa [Nat.zero_min] using ih

theorem foldl_min_le_self (ws : List Nat) (w : Nat) : ws.foldl min w ≤ w := by
  induction ws generalizing w with
  | nil => simp
  | cons x xs ih =>
    calc List.foldl min (min w x) xs ≤ min w x := ih _
      _ ≤ w := Nat.min_le_left _ _

theorem foldl_min_le (ws : List Nat) (w x : Nat) (hx : x ∈ w :: ws) :
    ws.foldl min w ≤ x := by
  induction ws generalizing w with
  | nil =>
    rcases List.mem_cons.mp hx with rfl | h
    · simp
    · cases h
  | cons y ys ih =>
    rcases List.mem_cons.mp hx with rfl | hx2
    · calc List.foldl min (min x y) ys ≤ min x y := foldl_min_le_self _ _
        _ ≤ x := Nat.min_le_left _ _
    · rcases List.mem_cons.mp hx2 with rfl | hx3
      · calc List.foldl min (min w x) ys ≤ min w x := foldl_min_le_self _ _
          _ ≤ x := Nat.min_le_right _ _
      · exact ih (min w y) (List.mem_cons.mpr (Or.inr hx3))

theorem le_foldl_min (ws : List Nat) (w k : Nat) (h : ∀ x ∈ w :: ws, k ≤ x) :
    k ≤ ws.foldl min w := by
  induction ws generalizing w with
  | nil => exact h w (by simp)
  | cons y ys ih =>
    apply ih (min w y)
    intro x hx
    rcases List.mem_cons.mp hx with rfl | hx2
    · exact le_min (h w (by simp)) (h y (by simp))
    · exact h x (by simp [hx2])

theorem foldl_min_mem (ws : List Nat) (w : Nat) : ws.foldl min w ∈ w :: ws := by
  induction ws generalizing w with
  | nil => simp
  | cons x xs ih =>
    have h := ih (min w x)
    rcases List.mem_cons.mp h with h1 | h1
    · rcases Nat.le_total w x with hle | hle
      · rw [List.foldl_cons, h1, min_eq_left hle]
        simp
      · rw [List.foldl_cons, h1, min_eq_right hle]
        simp
    · rw [List.foldl_cons]
      exact List.mem_cons.mpr (Or.inr (List.mem_cons.mpr (Or.inr h1)))

theorem takeWhile_of_all {α : Type} {p : α → Bool} (l : List α)
    (h : l.all p = true) : l.takeWhile p = l := by
  induction l with
  | nil => rfl
  | cons c cs ih =>
    rw [List.all_cons, Bool.and_eq_true] at h
    simp [List.takeWhile_cons, h.1, ih h.2]

theorem nonblankWidths_cons (l : List Char) (ls : List (List Char)) :
    nonblankWidths (l :: ls) =
      if l = [] then nonblankWidths ls else leadingWS l :: nonblankWidths ls := by
  by_cases hl : l = [] <;> simp [nonblankWidths, List.filter_cons, hl]

theorem minIndentLines_some (ls : List (List Char)) (n : Nat) :
    minIndentLines ls (some n) = (nonblankWidths ls).foldl min n := by
  induction ls generalizing n with
  | nil => rfl
  | cons l ls ih =>
    by_cases hl : l = []
    · subst hl
      simpa [minIndentLines, nonblankWidths_cons] using ih n
    · by_cases hw : leadingWS l = 0
      · simp [minIndentLines, hl, hw, nonblankWidths_cons, List.foldl_cons,
          Nat.min_zero, foldl_min_zero]
      · simp only [minIndentLines, if_neg hl, if_neg hw, nonblankWidths_cons,
          List.foldl_cons]
        rw [ih, Nat.min_comm]

theorem minIndentLines_none (ls : List (List Char)) :
    minIndentLines ls none = minIndentLinesSpec ls := by
  induction ls with
  | nil => rfl
  | cons l ls ih =>
    by_cases hl : l = []
    · subst hl
      have h1 : minIndentLinesSpec ([] :: ls) = minIndentLinesSpec ls := by
        unfold minIndentLinesSpec
        rw [nonblankWidths_cons]
        simp
      rw [h1, ← ih]
      simp [minIndentLines]
    · by_cases hw : leadingWS l = 0
      · have h1 : minIndentLinesSpec (l :: ls) = 0 := by
          unfold minIndentLinesSpec
          rw [nonblankWidths_cons, if_neg hl, hw]
          exact foldl_min_zero _
        rw [h1]
        simp [minIndentLines, hl, hw]
      · have h1 : minIndentLinesSpec (l :: ls) =
            (nonblankWidths ls).foldl min (leadingWS l) := by
          unfold minIndentLinesSpec
          rw [nonblankWidths_cons, if_neg hl]
        rw [h1]
        simp only [minIndentLines, if_neg hl, if_neg hw]
        exact minIndentLines_some ls (leadingWS l)

theorem minIndent_eq_spec (s : List Char) : minIndent s = minIndentSpec s :=
  minIndentLines_none _

theorem minIndentLinesSpec_eq_of (ls : List (List Char)) (k : Nat)
    (hall : ∀ l ∈ ls, k ≤ leadingWS l ∨ l = [])
    (hex : ∃ l ∈ ls, l ≠ [] ∧ leadingWS l = k) :
    minIndentLinesSpec ls = k := by
  obtain ⟨l0, h0, hne, hw⟩ := hex
  have hmem : k ∈ nonblankWidths ls := by
    rw [← hw]
    exact List.mem_map_of_mem _ (List.mem_filter.mpr ⟨h0, by simp [hne]⟩)
  cases hW : nonblankWidths ls with
  | nil => rw [hW] at hmem; cases hmem
  | cons w ws =>
    rw [hW] at hmem
    have hgoal : minIndentLinesSpec ls = ws.foldl min w := by
      unfold minIndentLinesSpec
      rw [hW]
    rw [hgoal]
    apply Nat.le_antisymm
    · exact foldl_min_le ws w k hmem
    · apply le_foldl_min
      intro x hx
      rw [← hW] at hx
      obtain ⟨l, hlf, hlw⟩ := List.mem_map.mp hx
      have hf := List.mem_filter.mp hlf
      rcases hall l hf.1 with h | h
      · exact hlw ▸ h
      · exfalso
        rw [h] at hf
        simp at hf

/-- Claim C3: minIndent returns the minimum leading-whitespace width among
non-blank lines, where only truly zero-length lines are skipped as blank;
a whitespace-only line counts as non-blank and contributes the length of
its whitespace run; the result is 0 when some non-blank line has zero
leading whitespace and 0 when no non-blank line exists. -/
theorem minIndent_documentIndent (s : List Char) :
    minIndent s = minIndentSpec s ∧
    ((splitLines s).filter (fun l => !l.isEmpty) = [] → minIndent s = 0) ∧
    (∀ l ∈ splitLines s, l ≠ [] → leadingWS l = 0 → minIndent s = 0) ∧
    (∀ l ∈ splitLines s, isExclusivelyWhitespace l = true →
      leadingWS l = l.length) := by
  refine ⟨minIndent_eq_spec s, ?_, ?_, ?_⟩
  · intro h
    rw [minIndent_eq_spec]
    unfold minIndentSpec minIndentLinesSpec nonblankWidths
    rw [h]
    rfl
  · intro l hm hne hw
    rw [minIndent_eq_spec]
    exact minIndentLinesSpec_eq_of _ 0 (fun l2 _ => Or.inl (Nat.zero_le _))
      ⟨l, hm, hne, hw⟩
  · intro l _ hws
    unfold leadingWS
    rw [takeWhile_of_all l hws]

/-- Witness for C3 at the fragment "hello\n  world": the line "hello" is
non-blank with zero leading whitespace, so minIndent is 0. -/
theorem minIndent_documentIndent_witness :
    ("hello".toList ∈ splitLines "hello\n  world".toList ∧
      "hello".toList ≠ [] ∧ leadingWS "hello".toList = 0) ∧
    minIndent "hello\n  world".toList = 0 :=
  ⟨⟨by decide, by decide, by decide⟩,
   (minIndent_documentIndent "hello\n  world".toList).2.2.1 "hello".toList
     (by decide) (by decide) (by decide)⟩

theorem dropWhile_append_of_all {α : Type} {p : α → Bool} (a b : List α)
    (h : ∀ c ∈ a, p c = true) : (a ++ b).dropWhile p = b.dropWhile p := by
  induction a with
  | nil => rfl
  | cons c cs ih =>
    rw [List.cons_append, List.dropWhile_cons, h c (by simp)]
    exact ih (fun d hd => h d (by simp [hd]))

theorem dropWhile_ne_nil_of_exists {α : Type} {p : α → Bool} (a : List α)
    (h : ∃ c ∈ a, p c = false) : a.dropWhile p ≠ [] := by
  induction a with
  | nil => obtain ⟨c, hc, _⟩ := h; cases hc
  | cons c cs ih =>
    rw [List.dropWhile_cons]
    by_cases hp : p c = true
    · rw [if_pos hp]
      apply ih
      obtain ⟨d, hd, hdp⟩ := h
      rcases List.mem_cons.mp hd with rfl | hd2
      · rw [hp] at hdp; cases hdp
      · exact ⟨d, hd2, hdp⟩
    · rw [if_neg hp]
      simp

theorem dropWhile_append_of_exists {α : Type} {p : α → Bool} (a b : List α)
    (h : ∃ c ∈ a, p c = false) : (a ++ b).dropWhile p = a.dropWhile p ++ b := by
  rw [List.dropWhile_append, if_neg]
  rw [List.isEmpty_iff]
  exact dropWhile_ne_nil_of_exists a h

theorem trimTrailingSpace_append_ws (x s : List Char)
    (h : ∀ c ∈ s, goIsSpace c = true) :
    trimTrailingSpace (x ++ s) = trimTrailingSpace x := by
  unfold trimTrailingSpace
  rw [List.reverse_append,
    dropWhile_append_of_all _ _ (fun c hc => h c (List.mem_reverse.mp hc))]

theorem trimTrailingSpace_append_nonws (x s : List Char)
    (h : ∃ c ∈ s, goIsSpace c = false) :
    trimTrailingSpace (x ++ s) = x ++ trimTrailingSpace s := by
  unfold trimTrailingSpace
  obtain ⟨c, hc, hcp⟩ := h
  rw [List.reverse_append,
    dropWhile_append_of_exists _ _ ⟨c, List.mem_reverse.mpr hc, hcp⟩,
    List.reverse_append, List.reverse_reverse]

theorem foldl_append_emit (c n : Nat) (body : List (List Char))
    (acc : List Char) :
    body.foldl (fun a l => a ++ emitLine c n l) acc =
      acc ++ (body.map (emitLine c n)).flatten := by
  induction body generalizing acc with
  | nil => simp
  | cons b bs ih =>
    rw [List.foldl_cons, ih, List.map_cons, List.flatten_cons, List.append_assoc]

theorem emitBody_eq_flatten (c n : Nat) (body : List (List Char)) :
    emitBody c n body = (body.map (emitLine c n)).flatten := by
  unfold emitBody
  simpa using foldl_append_emit c n body []

theorem emitLine_all_ws (c n : Nat) :
    ∀ ch ∈ emitLine c n [], goIsSpace ch = true := by
  intro ch hch
  have h : emitLine c n [] = List.replicate c ' ' ++ ['\n'] := by
    simp [emitLine, isExclusivelyWhitespace]
  rw [h] at hch
  rcases List.mem_append.mp hch with h2 | h2
  · rw [List.eq_of_mem_replicate h2]; rfl
  · rw [List.mem_singleton.mp h2]; rfl

/-- Claim C1: parse tries the three wrapping strategies strictly in order
WholeProgram, TopLevelDeclarations, FunctionBody, stopping at the first
wrapped text the external parse capability accepts; SyntheticIndent is 0
for the first two strategies, 1 for FunctionBody; when all three fail,
parse returns a single terminal failure. -/
theorem parse_strategy_ladder {α : Type} (cap : List Char → PResult α)
    (prg : List Char) :
    (∀ f, toAST cap (wrapAsWholeProgram prg) = some f →
      parse cap prg = some (f, minIndent prg, 0)) ∧
    (toAST cap (wrapAsWholeProgram prg) = none →
      ∀ f, toAST cap (wrapAsTopLevelIdentifiers prg) = some f →
        parse cap prg = some (f, minIndent prg, 0)) ∧
    (toAST cap (wrapAsWholeProgram prg) = none →
      toAST cap (wrapAsTopLevelIdentifiers prg) = none →
        ∀ f, toAST cap (wrapAsFunction prg) = some f →
          parse cap prg = some (f, minIndent prg, 1)) ∧
    (toAST cap (wrapAsWholeProgram prg) = none →
      toAST cap (wrapAsTopLevelIdentifiers prg) = none →
        toAST cap (wrapAsFunction prg) = none → parse cap prg = none) := by
  refine ⟨?_, ?_, ?_, ?_⟩
  · intro f h1
    simp [parse, h1]
  · intro h1 f h2
    simp [parse, h1, h2]
  · intro h1 h2 f h3
    simp [parse, h1, h2, h3]
  · intro h1 h2 h3
    simp [parse, h1, h2, h3]

/-- Witness for C1: a capability accepting only the function wrapping of
tIn drives parse through the full ladder to SyntheticIndent 1. -/
theorem parse_strategy_ladder_witness :
    (toAST capFn (wrapAsWholeProgram tIn) = none ∧
      toAST capFn (wrapAsTopLevelIdentifiers tIn) = none ∧
      toAST capFn (wrapAsFunction tIn) = some ()) ∧
    parse capFn tIn = some ((), 0, 1) := by
  refine ⟨⟨by decide, by decide, by decide⟩, ?_⟩
  have h := (parse_strategy_ladder capFn tIn).2.2.1 (by decide) (by decide) ()
    (by decide)
  rw [h]
  decide

/-- Claim C5: a runtime fault inside the external parse capability is
converted by toAST into an ordinary error result, and the strategy ladder
proceeds to later strategies instead of terminating. -/
theorem toAST_fault_confined {α : Type} (cap : List Char → PResult α)
    (prg s : List Char) :
    (cap s = PResult.fault → toAST cap s = none) ∧
    (cap (wrapAsWholeProgram prg) = PResult.fault →
      ∀ f, cap (wrapAsTopLevelIdentifiers prg) = PResult.ok f →
        parse cap prg = some (f, minIndent prg, 0)) ∧
    (cap (wrapAsWholeProgram prg) = PResult.fault →
      cap (wrapAsTopLevelIdentifiers prg) = PResult.fault →
        ∀ f, cap (wrapAsFunction prg) = PResult.ok f →
          parse cap prg = some (f, minIndent prg, 1)) := by
  refine ⟨?_, ?_, ?_⟩
  · intro h
    simp [toAST, h]
  · intro h1 f h2
    simp [parse, toAST, h1, h2]
  · intro h1 h2 f h3
    simp [parse, toAST, h1, h2, h3]

/-- Witness for C5: a capability that faults on the first wrapping of tIn
still lets parse accept the second wrapping. -/
theorem toAST_fault_confined_witness :
    (capMix (wrapAsWholeProgram tIn) = PResult.fault ∧
      capMix (wrapAsTopLevelIdentifiers tIn) = PResult.ok ()) ∧
    toAST capMix (wrapAsWholeProgram tIn) = none ∧
    parse capMix tIn = some ((), 0, 0) := by
  refine ⟨⟨by decide, by decide⟩, ?_, ?_⟩
  · exact (toAST_fault_confined capMix tIn (wrapAsWholeProgram tIn)).1 (by decide)
  · have h := (toAST_fault_confined capMix tIn tIn).2.1 (by decide) () (by decide)
    rw [h]
    decide

/-- Claim C6: when run fails with any of its terminal failures, nothing at
all is written to the output writer; the single write happens only after
every failure check. -/
theorem run_no_partial_output {α : Type} (cap : FmtCap α)
    (input w : List Char) (e : RunError) (h : run cap input = .error e) :
    runWriter cap input w = (w, some e) := by
  simp [runWriter, h]

/-- Witness for C6: the all-rejecting capability makes run fail in the
parse ladder, and the writer is left untouched. -/
theorem run_no_partial_output_witness :
    run capErrAll "abc".toList = Except.error RunError.parsing ∧
    runWriter capErrAll "abc".toList "w".toList =
      ("w".toList, some RunError.parsing) :=
  ⟨rfl, run_no_partial_output capErrAll "abc".toList "w".toList
    RunError.parsing rfl⟩

/-- Claim C8: during END scanning, a line that trims to exactly the END
marker stops the scan contributing no output (its yielded empty line is
removed by the final trailing trim), while a line merely suffixed by the
marker has the suffix stripped and the remainder kept as the final body
line. -/
theorem readLinesUntilEnd_end_handling (l : List Char)
    (ls : List (List Char)) (c n : Nat) (body : List (List Char)) :
    (trimSpace l = endMarker → readLinesUntilEnd (l :: ls) = some [[]]) ∧
    (trimTrailingSpace (emitBody c n (body ++ [[]])) =
      trimTrailingSpace (emitBody c n body)) ∧
    (trimSpace l ≠ endMarker → endMarker.isSuffixOf l = true →
      readLinesUntilEnd (l :: ls) = some [trimSuffix l endMarker]) := by
  refine ⟨fun h => by simp [readLinesUntilEnd, h], ?_,
    fun h1 h2 => by simp [readLinesUntilEnd, h1, h2]⟩
  rw [emitBody_eq_flatten, emitBody_eq_flatten, List.map_append,
    List.flatten_append]
  simp only [List.map_cons, List.map_nil, List.flatten_cons, List.flatten_nil,
    List.append_nil]
  exact trimTrailingSpace_append_ws _ _ (emitLine_all_ws c n)

/-- Witness for C8: a tab-indented exact END line is discarded and stops
the scan; a glued suffix END line keeps its code remainder. -/
theorem readLinesUntilEnd_end_handling_witness :
    (trimSpace "\t// END".toList = endMarker ∧
      readLinesUntilEnd ["\t// END".toList] = some [[]]) ∧
    (trimSpace "ab// END".toList ≠ endMarker ∧
      endMarker.isSuffixOf "ab// END".toList = true ∧
      readLinesUntilEnd ["ab// END".toList] = some ["ab".toList]) := by
  refine ⟨⟨by decide, ?_⟩, ⟨by decide, by decide, ?_⟩⟩
  · exact (readLinesUntilEnd_end_handling "\t// END".toList [] 0 0 []).1
      (by decide)
  · have h := (readLinesUntilEnd_end_handling "ab// END".toList [] 0 0 []).2.2
      (by decide) (by decide)
    rw [h]
    decide

/-- Claim C10: run is deterministic; two executions over identical input
bytes produce the identical error outcome and write the identical bytes,
regardless of what the writer already held. -/
theorem run_deterministic {α : Type} (cap : FmtCap α)
    (in1 in2 w1 w2 : List Char) (h : in1 = in2) :
    ∃ written err,
      runWriter cap in1 w1 = (w1 ++ written, err) ∧
      runWriter cap in2 w2 = (w2 ++ written, err) := by
  subst h
  cases hr : run cap in1 with
  | error e => exact ⟨[], some e, by simp [runWriter, hr], by simp [runWriter, hr]⟩
  | ok out => exact ⟨out, none, by simp [runWriter, hr], by simp [runWriter, hr]⟩

/-- Witness for C10 on the concrete example collaborator and fragment. -/
theorem run_deterministic_witness :
    ∃ written err,
      runWriter exCap exInput "a".toList = ("a".toList ++ written, err) ∧
      runWriter exCap exInput "bb".toList = ("bb".toList ++ written, err) :=
  run_deterministic exCap exInput exInput "a".toList "bb".toList rfl

theorem parse_minIndent {α : Type} (cap : List Char → PResult α)
    (prg : List Char) (f : α) (c n : Nat)
    (h : parse cap prg = some (f, c, n)) : c = minIndent prg := by
  unfold parse at h
  cases h1 : toAST cap (wrapAsWholeProgram prg) with
  | some g =>
    rw [h1] at h
    simp only [Option.some.injEq, Prod.mk.injEq] at h
    exact h.2.1.symm
  | none =>
    rw [h1] at h
    cases h2 : toAST cap (wrapAsTopLevelIdentifiers prg) with
    | some g =>
      rw [h2] at h
      simp only [Option.some.injEq, Prod.mk.injEq] at h
      exact h.2.1.symm
    | none =>
      rw [h2] at h
      cases h3 : toAST cap (wrapAsFunction prg) with
      | some g =>
        rw [h3] at h
        simp only [Option.some.injEq, Prod.mk.injEq] at h
        exact h.2.1.symm
      | none => rw [h3] at h; cases h

theorem run_ok_inversion {α : Type} (cap : FmtCap α) (input out : List Char)
    (h : run cap input = .ok out) :
    ∃ f n formatted rest body,
      parse cap.parse input = some (f, minIndent input, n) ∧
      cap.render f = some formatted ∧
      seekToBeginning (splitLines formatted) = some rest ∧
      readLinesUntilEnd rest = some body ∧
      out = trimTrailingSpace (emitBody (minIndent input) n body) := by
  cases hp : parse cap.parse input with
  | none => simp [run, hp] at h
  | some t =>
    obtain ⟨f, c, n⟩ := t
    have hc : c = minIndent input := parse_minIndent _ _ _ _ _ hp
    subst hc
    cases hr : cap.render f with
    | none => simp [run, hp, hr] at h
    | some formatted =>
      cases hs : seekToBeginning (splitLines formatted) with
      | none => simp [run, reassemble, hp, hr, hs] at h
      | some rest =>
        cases he : readLinesUntilEnd rest with
        | none => simp [run, reassemble, hp, hr, hs, he] at h
        | some body =>
          simp only [run, reassemble, hp, hr, hs, he, Except.ok.injEq] at h
          exact ⟨f, n, formatted, rest, body, rfl, hr, hs, he, h.symm⟩

/-- Claim C2: for each retained body line run emits the document indent
alone for a whitespace-only line and otherwise the document indent, the
line stripped of its first SyntheticIndent elements, and the line break;
the accumulated output is then trimmed of all trailing whitespace with no
forced trailing newline. -/
theorem run_emission {α : Type} (cap : FmtCap α) (input : List Char) (f : α)
    (c n : Nat) (formatted : List Char) (rest body : List (List Char))
    (hp : parse cap.parse input = some (f, c, n))
    (hr : cap.render f = some formatted)
    (hs : seekToBeginning (splitLines formatted) = some rest)
    (he : readLinesUntilEnd rest = some body) :
    run cap input = .ok (trimTrailingSpace (List.flatten (body.map (fun l =>
      if isExclusivelyWhitespace l then List.replicate c ' ' ++ ['\n']
      else List.replicate c ' ' ++ l.drop n ++ ['\n'])))) := by
  simp only [run, reassemble, hp, hr, hs, he]
  rw [emitBody_eq_flatten]
  rfl

/-- Witness for C2 on the concrete example collaborator: the two retained
body lines are rewritten and the trailing whitespace trimmed. -/
theorem run_emission_witness :
    (parse exCap.parse exInput = some ((), 0, 1) ∧
      exCap.render () = some exFormatted ∧
      seekToBeginning (splitLines exFormatted) =
        some ["\tx := 1".toList, "\t// END".toList, "\ty := 2".toList,
          "\t// END".toList, "\x7d".toList] ∧
      readLinesUntilEnd ["\tx := 1".toList, "\t// END".toList,
        "\ty := 2".toList, "\t// END".toList, "\x7d".toList] =
        some ["\tx := 1".toList, []]) ∧
    run exCap exInput = .ok (trimTrailingSpace
      (List.flatten (["\tx := 1".toList, ([] : List Char)].map (fun l =>
        if isExclusivelyWhitespace l then List.replicate 0 ' ' ++ ['\n']
        else List.replicate 0 ' ' ++ l.drop 1 ++ ['\n'])))) :=
  ⟨⟨by decide, rfl, by decide, by decide⟩,
   run_emission exCap exInput () 0 1 exFormatted
     ["\tx := 1".toList, "\t// END".toList, "\ty := 2".toList,
       "\t// END".toList, "\x7d".toList]
     ["\tx := 1".toList, []] (by decide) rfl (by decide) (by decide)⟩

theorem seekToBeginning_eq_none (ls : List (List Char))
    (h : ∀ l ∈ ls, trimSpace l ≠ beginMarker) : seekToBeginning ls = none := by
  induction ls with
  | nil => rfl
  | cons l ls ih =>
    unfold seekToBeginning
    rw [if_neg (h l (by simp))]
    exact ih (fun l2 hl2 => h l2 (by simp [hl2]))

theorem readLinesUntilEnd_eq_none (ls : List (List Char))
    (h : ∀ l ∈ ls, trimSpace l ≠ endMarker ∧ endMarker.isSuffixOf l = false) :
    readLinesUntilEnd ls = none := by
  induction ls with
  | nil => rfl
  | cons l ls ih =>
    obtain ⟨h1, h2⟩ := h l (by simp)
    unfold readLinesUntilEnd
    rw [if_neg h1, if_neg (by simp [h2]),
      ih (fun l2 hl2 => h l2 (by simp [hl2]))]

/-- Claim C7: when the formatted text has no line trimming to the BEGIN
marker, run fails with the beginning-marker terminal failure; when, after
the BEGIN marker is found, no remaining line trims to or ends with the END
marker, run fails with the end-marker terminal failure. -/
theorem run_marker_failures {α : Type} (cap : FmtCap α) (input : List Char) :
    (∀ (f : α) (c n : Nat) formatted,
      parse cap.parse input = some (f, c, n) →
      cap.render f = some formatted →
      (∀ l ∈ splitLines formatted, trimSpace l ≠ beginMarker) →
      run cap input = .error .noBeginning) ∧
    (∀ (f : α) (c n : Nat) formatted rest,
      parse cap.parse input = some (f, c, n) →
      cap.render f = some formatted →
      seekToBeginning (splitLines formatted) = some rest →
      (∀ l ∈ rest, trimSpace l ≠ endMarker ∧
        endMarker.isSuffixOf l = false) →
      run cap input = .error .noEnd) := by
  constructor
  · intro f c n formatted hp hr hall
    simp [run, reassemble, hp, hr, seekToBeginning_eq_none _ hall]
  · intro f c n formatted rest hp hr hs hall
    simp [run, reassemble, hp, hr, hs, readLinesUntilEnd_eq_none _ hall]

/-- Witness for C7: collaborators rendering text without the BEGIN line,
or without any END line after the BEGIN line, drive run into the two
marker failures. -/
theorem run_marker_failures_witness :
    run capNoBegin tIn = Except.error RunError.noBeginning ∧
    run capNoEnd tIn = Except.error RunError.noEnd := by
  constructor
  · exact (run_marker_failures capNoBegin tIn).1 () 0 0
      "nothing here\n".toList (by decide) rfl (by decide)
  · exact (run_marker_failures capNoEnd tIn).2 () 0 0
      "// BEGIN\nstuff\n".toList ["stuff".toList] (by decide) rfl (by decide)
      (by decide)

/-- Claim C9: a fragment whose own content contains a line that, after the
formatter round-trip, trims to exactly the END marker makes run succeed
while silently dropping every fragment line after it: here the input's
"y := 2" line disappears from the successful output. -/
theorem run_silent_truncation_example :
    run exCap exInput = Except.ok "x := 1".toList ∧
    splitLines exInput = ["x := 1".toList, endMarker, "y := 2".toList] ∧
    "y := 2".toList ∉ splitLines "x := 1".toList := by
  refine ⟨rfl, by decide, by decide⟩

theorem splitLinesAux_append_newline (piece : List Char)
    (hn : '\n' ∉ piece) : ∀ (rest acc : List Char),
    splitLinesAux (piece ++ '\n' :: rest) acc =
      dropCR (acc.reverse ++ piece) :: splitLinesAux rest [] := by
  induction piece with
  | nil =>
    intro rest acc
    simp [splitLinesAux]
  | cons c p ih =>
    intro rest acc
    have hc : c ≠ '\n' := fun h => hn (h ▸ List.mem_cons_self c p)
    have hp : '\n' ∉ p := fun h => hn (List.mem_cons.mpr (Or.inr h))
    rw [List.cons_append]
    show splitLinesAux (c :: (p ++ '\n' :: rest)) acc = _
    rw [splitLinesAux, if_neg hc, ih hp rest (c :: acc)]
    simp [List.append_assoc]

theorem splitLinesAux_no_newline (t : List Char) (hn : '\n' ∉ t) :
    ∀ acc : List Char, acc.reverse ++ t ≠ [] →
    splitLinesAux t acc = [dropCR (acc.reverse ++ t)] := by
  induction t with
  | nil =>
    intro acc hne
    cases acc with
    | nil => simp at hne
    | cons a as => simp [splitLinesAux]
  | cons c cs ih =>
    intro acc hne
    have hc : c ≠ '\n' := fun h => hn (h ▸ List.mem_cons_self c cs)
    have hcs : '\n' ∉ cs := fun h => hn (List.mem_cons.mpr (Or.inr h))
    rw [splitLinesAux, if_neg hc, ih hcs (c :: acc) (by simp)]
    simp [List.append_assoc]

theorem splitLines_chunks (pieces : List (List Char)) (t : List Char)
    (hp : ∀ p ∈ pieces, '\n' ∉ p) (ht : '\n' ∉ t) (htne : t ≠ []) :
    splitLines ((pieces.map (fun p => p ++ ['\n'])).flatten ++ t) =
      pieces.map dropCR ++ [dropCR t] := by
  induction pieces with
  | nil =>
    simp only [List.map_nil, List.flatten_nil, List.nil_append]
    exact splitLinesAux_no_newline t ht [] (by simpa using htne)
  | cons p ps ih =>
    have hpn : '\n' ∉ p := hp p (by simp)
    have hps : ∀ q ∈ ps, '\n' ∉ q := fun q hq => hp q (by simp [hq])
    rw [List.map_cons, List.flatten_cons, List.append_assoc]
    have hshape : (p ++ ['\n']) ++ ((ps.map (fun q => q ++ ['\n'])).flatten ++ t) =
        p ++ '\n' :: ((ps.map (fun q => q ++ ['\n'])).flatten ++ t) := by
      simp
    unfold splitLines
    rw [← List.append_assoc, List.append_assoc, hshape,
      splitLinesAux_append_newline p hpn]
    show _ = dropCR p :: (ps.map dropCR ++ [dropCR t])
    rw [← ih hps]
    simp [splitLines]

theorem mem_dropCR {l : List Char} {c : Char} (h : c ∈ dropCR l) : c ∈ l := by
  unfold dropCR at h
  split at h
  · exact List.mem_of_mem_dropLast h
  · exact h

theorem mem_splitLinesAux_no_newline (s : List Char) :
    ∀ acc : List Char, '\n' ∉ acc →
    ∀ l ∈ splitLinesAux s acc, '\n' ∉ l := by
  induction s with
  | nil =>
    intro acc hacc l hl
    cases acc with
    | nil => cases hl
    | cons a as =>
      rw [show splitLinesAux [] (a :: as) = [dropCR ((a :: as).reverse)] from rfl]
        at hl
      rcases List.mem_singleton.mp hl with rfl
      intro hmem
      exact hacc (List.mem_reverse.mp (mem_dropCR hmem))
  | cons c cs ih =>
    intro acc hacc l hl
    rw [splitLinesAux] at hl
    by_cases hc : c = '\n'
    · rw [if_pos hc] at hl
      rcases List.mem_cons.mp hl with rfl | hl2
      · intro hmem
        exact hacc (List.mem_reverse.mp (mem_dropCR hmem))
      · exact ih [] (by simp) l hl2
    · rw [if_neg hc] at hl
      refine ih (c :: acc) ?_ l hl
      intro hmem
      rcases List.mem_cons.mp hmem with h | h
      · exact hc h.symm
      · exact hacc h

theorem mem_splitLines_no_newline (s : List Char) :
    ∀ l ∈ splitLines s, '\n' ∉ l :=
  mem_splitLinesAux_no_newline s [] (by simp)

theorem seekToBeginning_sublist (ls : List (List Char)) :
    ∀ rest, seekToBeginning ls = some rest → ∀ l ∈ rest, l ∈ ls := by
  induction ls with
  | nil => intro rest h; cases h
  | cons l0 ls ih =>
    intro rest h
    rw [seekToBeginning] at h
    by_cases hb : trimSpace l0 = beginMarker
    · rw [if_pos hb] at h
      cases h
      intro l hl
      exact List.mem_cons.mpr (Or.inr hl)
    · rw [if_neg hb] at h
      intro l hl
      exact List.mem_cons.mpr (Or.inr (ih rest h l hl))

theorem readLinesUntilEnd_no_newline (rest : List (List Char)) :
    ∀ body, (∀ l ∈ rest, '\n' ∉ l) → readLinesUntilEnd rest = some body →
    ∀ b ∈ body, '\n' ∉ b := by
  induction rest with
  | nil => intro body _ h; cases h
  | cons l ls ih =>
    intro body hfree h
    rw [readLinesUntilEnd] at h
    by_cases h1 : trimSpace l = endMarker
    · rw [if_pos h1] at h
      cases h
      intro b hb
      rcases List.mem_singleton.mp hb with rfl
      simp
    · rw [if_neg h1] at h
      by_cases h2 : endMarker.isSuffixOf l = true
      · rw [if_pos h2] at h
        cases h
        intro b hb
        rcases List.mem_singleton.mp hb with rfl
        intro hmem
        unfold trimSuffix at hmem
        rw [if_pos h2] at hmem
        exact hfree l (by simp) (List.mem_of_mem_take hmem)
      · rw [if_neg h2] at h
        cases hrec : readLinesUntilEnd ls with
        | none => rw [hrec] at h; cases h
        | some body2 =>
          rw [hrec] at h
          cases h
          intro b hb
          rcases List.mem_cons.mp hb with rfl | hb2
          · exact hfree b (by simp)
          · exact ih body2 (fun l2 hl2 => hfree l2 (by simp [hl2])) hrec b hb2

theorem goIsSpace_space : goIsSpace ' ' = true := rfl

theorem goIsSpace_cr : goIsSpace '\r' = true := rfl

theorem trimTrailingSpace_all_ws (s : List Char)
    (h : ∀ c ∈ s, goIsSpace c = true) : trimTrailingSpace s = [] := by
  have := trimTrailingSpace_append_ws [] s h
  simpa using this

theorem exists_first_nonspace (l : List Char) (h : l.all goIsSpace = false) :
    ∃ a c0 d, l = a ++ c0 :: d ∧ (∀ c ∈ a, goIsSpace c = true) ∧
      goIsSpace c0 = false := by
  induction l with
  | nil => simp at h
  | cons c cs ih =>
    by_cases hc : goIsSpace c = true
    · rw [List.all_cons, hc, Bool.true_and] at h
      obtain ⟨a, c0, d, he, ha, hc0⟩ := ih h
      refine ⟨c :: a, c0, d, by rw [he, List.cons_append], ?_, hc0⟩
      intro x hx
      rcases List.mem_cons.mp hx with rfl | hx2
      · exact hc
      · exact ha x hx2
    · exact ⟨[], c, cs, rfl, by simp, by simpa using hc⟩

theorem takeWhile_append_cons {p : Char → Bool} (a : List Char) (c0 : Char)
    (d : List Char) (ha : ∀ c ∈ a, p c = true) (hc0 : p c0 = false) :
    (a ++ c0 :: d).takeWhile p = a := by
  induction a with
  | nil => simp [List.takeWhile_cons, hc0]
  | cons c cs ih =>
    rw [List.cons_append, List.takeWhile_cons, ha c (by simp),
      ih (fun x hx => ha x (by simp [hx]))]
    simp

theorem dropWhile_head_false {p : Char → Bool} (a : List Char) (c : Char)
    (rest : List Char) (h : a.dropWhile p = c :: rest) : p c = false := by
  induction a with
  | nil => cases h
  | cons x xs ih =>
    rw [List.dropWhile_cons] at h
    by_cases hx : p x = true
    · rw [if_pos hx] at h
      exact ih h
    · rw [if_neg hx] at h
      cases h
      simpa using hx

theorem trimTrailingSpace_last_nonspace (l : List Char)
    (h : l.all goIsSpace = false) :
    ∃ y c, trimTrailingSpace l = y ++ [c] ∧ goIsSpace c = false := by
  obtain ⟨c0, hc0, hc0p⟩ := List.all_eq_false.mp h
  have hne : l.reverse.dropWhile goIsSpace ≠ [] :=
    dropWhile_ne_nil_of_exists _ ⟨c0, List.mem_reverse.mpr hc0, by simpa using hc0p⟩
  cases hd : l.reverse.dropWhile goIsSpace with
  | nil => exact absurd hd hne
  | cons c rest =>
    refine ⟨rest.reverse, c, ?_, dropWhile_head_false _ _ _ hd⟩
    unfold trimTrailingSpace
    rw [hd]
    simp

theorem trimTrailingSpace_cons_nonws (c0 : Char) (d : List Char)
    (hc0 : goIsSpace c0 = false) :
    trimTrailingSpace (c0 :: d) = c0 :: trimTrailingSpace d := by
  unfold trimTrailingSpace
  rw [List.reverse_cons, List.dropWhile_append]
  split
  · next hemp =>
    rw [List.isEmpty_iff] at hemp
    rw [hemp]
    simp [List.dropWhile_cons, hc0]
  · simp

theorem trimTrailingSpace_structure (l : List Char)
    (h : l.all goIsSpace = false) :
    trimTrailingSpace l ≠ [] ∧
      leadingWS (trimTrailingSpace l) = leadingWS l := by
  obtain ⟨a, c0, d, he, ha, hc0⟩ := exists_first_nonspace l h
  subst he
  have ht : trimTrailingSpace (a ++ c0 :: d) = a ++ c0 :: trimTrailingSpace d := by
    rw [trimTrailingSpace_append_nonws a (c0 :: d) ⟨c0, by simp, hc0⟩,
      trimTrailingSpace_cons_nonws c0 d hc0]
  rw [ht]
  constructor
  · simp
  · unfold leadingWS
    rw [takeWhile_append_cons a c0 _ ha hc0, takeWhile_append_cons a c0 d ha hc0]

theorem leadingWS_replicate (k : Nat) (l : List Char) :
    leadingWS (List.replicate k ' ' ++ l) = k + leadingWS l := by
  unfold leadingWS
  rw [List.takeWhile_append, List.takeWhile_replicate, if_pos goIsSpace_space,
    if_pos rfl, List.length_append, List.length_replicate]

theorem take_replicate_append (k : Nat) (x : List Char) :
    (List.replicate k ' ' ++ x).take k = List.replicate k ' ' := by
  have h := List.take_left (List.replicate k ' ') x
  rwa [List.length_replicate] at h

theorem takeWhile_take {p : Char → Bool} (l : List Char) :
    ∀ m, (l.take m).takeWhile p = (l.takeWhile p).take m := by
  induction l with
  | nil => intro m; simp
  | cons c cs ih =>
    intro m
    cases m with
    | zero => simp
    | succ m2 =>
      rw [List.take_succ_cons, List.takeWhile_cons, List.takeWhile_cons]
      by_cases hc : p c = true
      · rw [if_pos hc, if_pos hc, List.take_succ_cons, ih]
      · rw [if_neg hc, if_neg hc]
        simp

theorem leadingWS_take (l : List Char) (m : Nat) :
    leadingWS (l.take m) = min m (leadingWS l) := by
  unfold leadingWS
  rw [takeWhile_take, List.length_take]

theorem leadingWS_cons (c : Char) (l : List Char) :
    leadingWS (c :: l) = if goIsSpace c then leadingWS l + 1 else 0 := by
  unfold leadingWS
  rw [List.takeWhile_cons]
  by_cases hc : goIsSpace c = true
  · rw [if_pos hc, if_pos hc, List.length_cons]
  · rw [if_neg hc, if_neg hc]
    rfl

theorem replicate_space_getLast (k : Nat) :
    (List.replicate k ' ').getLast? ≠ some '\r' := by
  cases k with
  | zero => simp
  | succ k2 =>
    rw [List.replicate_succ', List.getLast?_concat]
    simp

theorem dropCR_replicate_cases (k : Nat) (x : List Char) :
    dropCR (List.replicate k ' ' ++ x) = List.replicate k ' ' ++ x ∨
    (x ≠ [] ∧ (List.replicate k ' ' ++ x).getLast? = some '\r' ∧
      dropCR (List.replicate k ' ' ++ x) =
        (List.replicate k ' ' ++ x).take (k + x.length - 1)) := by
  unfold dropCR
  by_cases h : (List.replicate k ' ' ++ x).getLast? = some '\r'
  · right
    refine ⟨?_, h, ?_⟩
    · intro hx
      subst hx
      rw [List.append_nil] at h
      exact replicate_space_getLast k h
    · rw [if_pos h, List.dropLast_eq_take, List.length_append,
        List.length_replicate]
  · left
    rw [if_neg h]

theorem take_k_dropCR (k : Nat) (x : List Char) :
    (dropCR (List.replicate k ' ' ++ x)).take k = List.replicate k ' ' := by
  rcases dropCR_replicate_cases k x with h | ⟨hx, _, h⟩
  · rw [h, take_replicate_append]
  · rw [h, List.take_take]
    have hx1 : 1 ≤ x.length := List.length_pos.mpr hx
    have hm : min k (k + x.length - 1) = k := by omega
    rw [hm, take_replicate_append]

theorem le_leadingWS_dropCR (k : Nat) (x : List Char) :
    k ≤ leadingWS (dropCR (List.replicate k ' ' ++ x)) := by
  rcases dropCR_replicate_cases k x with h | ⟨hx, _, h⟩
  · rw [h, leadingWS_replicate]
    omega
  · rw [h, leadingWS_take, leadingWS_replicate]
    have hx1 : 1 ≤ x.length := List.length_pos.mpr hx
    exact le_min (by omega) (by omega)

theorem dropCR_margin (k : Nat) (x : List Char)
    (hws : x.all goIsSpace = false) (hlw : leadingWS x = 0) :
    dropCR (List.replicate k ' ' ++ x) ≠ [] ∧
      leadingWS (dropCR (List.replicate k ' ' ++ x)) = k := by
  have hxne : x ≠ [] := by
    intro h
    subst h
    simp at hws
  rcases dropCR_replicate_cases k x with h | ⟨hx, hlast, h⟩
  · rw [h]
    refine ⟨by simp [hxne], ?_⟩
    rw [leadingWS_replicate, hlw]
    omega
  · have hlen2 : 2 ≤ x.length := by
      cases x with
      | nil => exact absurd rfl hxne
      | cons c0 xs =>
        have hc0 : goIsSpace c0 = false := by
          rw [leadingWS_cons] at hlw
          by_cases hg : goIsSpace c0 = true
          · rw [if_pos hg] at hlw
            omega
          · simpa using hg
        cases xs with
        | nil =>
          exfalso
          rw [List.getLast?_append,
            show ([c0].getLast?.or (List.replicate k ' ').getLast? = some c0)
              from rfl] at hlast
          simp only [Option.some.injEq] at hlast
          rw [hlast] at hc0
          exact absurd goIsSpace_cr (by rw [hc0]; simp)
        | cons c1 xs2 => simp [List.length_cons]
    constructor
    · rw [h]
      have hlen : ((List.replicate k ' ' ++ x).take (k + x.length - 1)).length =
          k + x.length - 1 := by
        rw [List.length_take, List.length_append, List.length_replicate]
        omega
      intro hnil
      rw [hnil] at hlen
      simp at hlen
      omega
    · rw [h, leadingWS_take, leadingWS_replicate, hlw]
      omega

theorem emitLine_eq_core (c n : Nat) (l : List Char) :
    emitLine c n l = List.replicate c ' ' ++ (coreOf n l ++ ['\n']) := by
  unfold emitLine coreOf
  by_cases h : isExclusivelyWhitespace l = true
  · rw [if_pos h, if_pos h]
    simp
  · rw [if_neg h, if_neg h]
    simp

theorem mem_coreOf {n : Nat} {l : List Char} {c : Char} (h : c ∈ coreOf n l) :
    c ∈ l := by
  unfold coreOf at h
  split at h
  · cases h
  · exact List.mem_of_mem_drop h

theorem mem_trimTrailingSpace {l : List Char} {c : Char}
    (h : c ∈ trimTrailingSpace l) : c ∈ l := by
  unfold trimTrailingSpace at h
  rw [List.mem_reverse] at h
  exact List.mem_reverse.mp ((List.dropWhile_sublist _).mem h)

theorem emitLine_ws_of_core_ws (c n : Nat) (b : List Char)
    (h : (coreOf n b).all goIsSpace = true) :
    ∀ ch ∈ emitLine c n b, goIsSpace ch = true := by
  intro ch hch
  rw [emitLine_eq_core] at hch
  rcases List.mem_append.mp hch with h1 | h1
  · rw [List.eq_of_mem_replicate h1]
    exact goIsSpace_space
  · rcases List.mem_append.mp h1 with h2 | h2
    · exact List.all_eq_true.mp h ch h2
    · rw [List.mem_singleton.mp h2]
      rfl

theorem emitLine_has_nonspace (c n : Nat) (b : List Char)
    (h : (coreOf n b).all goIsSpace = false) :
    ∃ ch ∈ emitLine c n b, goIsSpace ch = false := by
  obtain ⟨ch, hm, hp⟩ := List.all_eq_false.mp h
  refine ⟨ch, ?_, by simpa using hp⟩
  rw [emitLine_eq_core]
  exact List.mem_append.mpr (Or.inr (List.mem_append.mpr (Or.inl hm)))

theorem dropCR_concat_nonspace (x : List Char) (ch : Char)
    (hch : goIsSpace ch = false) : dropCR (x ++ [ch]) = x ++ [ch] := by
  unfold dropCR
  rw [List.getLast?_concat, if_neg]
  intro hx
  rw [Option.some.injEq] at hx
  rw [hx] at hch
  rw [goIsSpace_cr] at hch
  cases hch

theorem splitLines_trim_emit (c n : Nat) :
    ∀ R : List (List Char), (∀ b ∈ R, '\n' ∉ b) →
    splitLines (trimTrailingSpace ((R.reverse.map (emitLine c n)).flatten)) =
      (finalLinesRev c n R).reverse := by
  intro R
  induction R with
  | nil => intro _; rfl
  | cons b bs ih =>
    intro hfree
    have hfree2 : ∀ q ∈ bs, '\n' ∉ q := fun q hq => hfree q (by simp [hq])
    have hbfree : '\n' ∉ b := hfree b (by simp)
    rw [List.reverse_cons, List.map_append, List.flatten_append]
    simp only [List.map_cons, List.map_nil, List.flatten_cons,
      List.flatten_nil, List.append_nil]
    by_cases hws : (coreOf n b).all goIsSpace = true
    · rw [trimTrailingSpace_append_ws _ _ (emitLine_ws_of_core_ws c n b hws),
        ih hfree2]
      simp only [finalLinesRev]
      rw [if_pos hws]
    · have hnb : (coreOf n b).all goIsSpace = false := by simpa using hws
      rw [trimTrailingSpace_append_nonws _ _ (emitLine_has_nonspace c n b hnb)]
      have htb : trimTrailingSpace (emitLine c n b) =
          List.replicate c ' ' ++ trimTrailingSpace (coreOf n b) := by
        rw [emitLine_eq_core]
        have hex : ∃ ch ∈ coreOf n b ++ ['\n'], goIsSpace ch = false := by
          obtain ⟨ch, hm, hp⟩ := List.all_eq_false.mp hnb
          exact ⟨ch, List.mem_append.mpr (Or.inl hm), by simpa using hp⟩
        rw [trimTrailingSpace_append_nonws _ _ hex,
          trimTrailingSpace_append_ws (coreOf n b) ['\n']
            (by intro ch hch; rw [List.mem_singleton.mp hch]; rfl)]
      rw [htb]
      have hchunks : bs.reverse.map (emitLine c n) =
          (bs.reverse.map (fun b2 => List.replicate c ' ' ++ coreOf n b2)).map
            (fun p => p ++ ['\n']) := by
        rw [List.map_map]
        apply List.map_congr_left
        intro b2 _
        show emitLine c n b2 = (List.replicate c ' ' ++ coreOf n b2) ++ ['\n']
        rw [emitLine_eq_core, List.append_assoc]
      obtain ⟨y, ch, hy, hchn⟩ := trimTrailingSpace_last_nonspace _ hnb
      have htne : List.replicate c ' ' ++ trimTrailingSpace (coreOf n b) ≠ [] := by
        rw [hy]
        simp
      rw [hchunks, splitLines_chunks _ _ ?hpieces ?ht htne]
      case hpieces =>
        intro p hp hmem
        obtain ⟨b2, hb2, rfl⟩ := List.mem_map.mp hp
        rcases List.mem_append.mp hmem with h1 | h1
        · have := List.eq_of_mem_replicate h1
          cases this
        · exact hfree2 b2 (List.mem_reverse.mp hb2) (mem_coreOf h1)
      case ht =>
        intro hmem
        rcases List.mem_append.mp hmem with h1 | h1
        · have := List.eq_of_mem_replicate h1
          cases this
        · exact hbfree (mem_coreOf (mem_trimTrailingSpace h1))
      have hdcr : dropCR (List.replicate c ' ' ++ trimTrailingSpace (coreOf n b)) =
          List.replicate c ' ' ++ trimTrailingSpace (coreOf n b) := by
        rw [hy, ← List.append_assoc]
        exact dropCR_concat_nonspace _ ch hchn
      rw [hdcr, List.map_map]
      unfold finalLinesRev
      rw [if_neg hws, List.reverse_cons]
      congr 1
      rw [← List.map_reverse]
      rfl

theorem mem_finalLinesRev_shape (c n : Nat) :
    ∀ (R : List (List Char)) l2, l2 ∈ finalLinesRev c n R →
    (∃ x, l2 = List.replicate c ' ' ++ trimTrailingSpace x) ∨
    (∃ x, l2 = dropCR (List.replicate c ' ' ++ x)) := by
  intro R
  induction R with
  | nil => intro l2 h; cases h
  | cons b bs ih =>
    intro l2 h
    unfold finalLinesRev at h
    by_cases hws : (coreOf n b).all goIsSpace = true
    · rw [if_pos hws] at h
      exact ih l2 h
    · rw [if_neg hws] at h
      rcases List.mem_cons.mp h with rfl | h2
      · exact Or.inl ⟨coreOf n b, rfl⟩
      · obtain ⟨b2, _, hb2⟩ := List.mem_map.mp h2
        exact Or.inr ⟨coreOf n b2, hb2.symm⟩

theorem take_k_mem_finalLinesRev (k n : Nat) (R : List (List Char)) :
    ∀ l2 ∈ finalLinesRev k n R, l2.take k = List.replicate k ' ' := by
  intro l2 h
  rcases mem_finalLinesRev_shape k n R l2 h with ⟨x, rfl⟩ | ⟨x, rfl⟩
  · exact take_replicate_append k _
  · exact take_k_dropCR k x

theorem le_leadingWS_mem_finalLinesRev (k n : Nat) (R : List (List Char)) :
    ∀ l2 ∈ finalLinesRev k n R, k ≤ leadingWS l2 := by
  intro l2 h
  rcases mem_finalLinesRev_shape k n R l2 h with ⟨x, rfl⟩ | ⟨x, rfl⟩
  · rw [leadingWS_replicate]
    omega
  · exact le_leadingWS_dropCR k x

theorem exists_margin_finalLinesRev (k n : Nat) :
    ∀ R : List (List Char),
    (∃ b ∈ R, (coreOf n b).all goIsSpace = false ∧
      leadingWS (coreOf n b) = 0) →
    ∃ l2 ∈ finalLinesRev k n R, l2 ≠ [] ∧ leadingWS l2 = k := by
  intro R
  induction R with
  | nil =>
    intro h
    obtain ⟨b, hb, _⟩ := h
    cases hb
  | cons b bs ih =>
    intro h
    obtain ⟨b1, hb1, hbw, hblw⟩ := h
    by_cases hws : (coreOf n b).all goIsSpace = true
    · have hb1bs : b1 ∈ bs := by
        rcases List.mem_cons.mp hb1 with rfl | h2
        · rw [hws] at hbw; cases hbw
        · exact h2
      obtain ⟨l2, hl2, hprop⟩ := ih ⟨b1, hb1bs, hbw, hblw⟩
      refine ⟨l2, ?_, hprop⟩
      unfold finalLinesRev
      rw [if_pos hws]
      exact hl2
    · rcases List.mem_cons.mp hb1 with rfl | h2
      · obtain ⟨hne2, hlww⟩ := trimTrailingSpace_structure _ hbw
        refine ⟨List.replicate k ' ' ++ trimTrailingSpace (coreOf n b1),
          ?_, ?_, ?_⟩
        · unfold finalLinesRev
          rw [if_neg hws]
          exact List.mem_cons_self _ _
        · simp [hne2]
        · rw [leadingWS_replicate, hlww, hblw]
          omega
      · refine ⟨dropCR (List.replicate k ' ' ++ coreOf n b1), ?_, ?_⟩
        · unfold finalLinesRev
          rw [if_neg hws]
          exact List.mem_cons.mpr (Or.inr (List.mem_map_of_mem _ h2))
        · exact dropCR_margin k _ hbw hblw

theorem minIndent_preindent (s s2 : List Char) (k : Nat)
    (hpre : splitLines s2 =
      (splitLines s).map (fun l => List.replicate k ' ' ++ l))
    (h0 : minIndent s = 0) (hne : splitLines s ≠ []) :
    minIndent s2 = k := by
  have hspec : minIndentLinesSpec (splitLines s) = 0 :=
    (minIndent_eq_spec s).symm.trans h0
  rw [minIndent_eq_spec]
  unfold minIndentSpec
  rw [hpre]
  cases k with
  | zero =>
    have hid : (splitLines s).map (fun l => List.replicate 0 ' ' ++ l) =
        splitLines s := by
      simp
    rw [hid]
    exact hspec
  | succ k2 =>
    apply minIndentLinesSpec_eq_of
    · intro l2 hl2
      obtain ⟨l, _, rfl⟩ := List.mem_map.mp hl2
      left
      rw [leadingWS_replicate]
      omega
    · have hex : ∃ l ∈ splitLines s, leadingWS l = 0 := by
        cases hW : nonblankWidths (splitLines s) with
        | nil =>
          cases hsl : splitLines s with
          | nil => exact absurd hsl hne
          | cons l0 ls =>
            refine ⟨l0, by simp, ?_⟩
            have hl0 : l0 = [] := by
              by_contra hne2
              have hmem : leadingWS l0 ∈ nonblankWidths (splitLines s) := by
                rw [hsl]
                exact List.mem_map_of_mem _
                  (List.mem_filter.mpr ⟨by simp, by simp [hne2]⟩)
              rw [hW] at hmem
              cases hmem
            rw [hl0]
            rfl
        | cons w ws =>
          have h1 : minIndentLinesSpec (splitLines s) = ws.foldl min w := by
            unfold minIndentLinesSpec
            rw [hW]
          have h2 : ws.foldl min w = 0 := h1 ▸ hspec
          have h3 : (0 : Nat) ∈ w :: ws := h2 ▸ foldl_min_mem ws w
          rw [← hW] at h3
          obtain ⟨l, hlf, hlw⟩ := List.mem_map.mp h3
          exact ⟨l, (List.mem_filter.mp hlf).1, hlw⟩
      obtain ⟨l, hl, hlw⟩ := hex
      refine ⟨List.replicate (k2 + 1) ' ' ++ l, List.mem_map_of_mem _ hl,
        by simp, ?_⟩
      rw [leadingWS_replicate, hlw]

/-- Claim C4: round-trip on document indent.  If inputInd is input
pre-indented by k columns on every line, input has document indent 0 and
at least one line, and the collaborator formats canonically (some retained
body line sits at the margin once the synthetic indent is removed, as
canonical formatting guarantees), then a successful run on inputInd yields
output whose every line starts with exactly k space columns followed by
the canonical content, and the Prober recovers exactly k from the
output. -/
theorem run_roundtrip_document_indent {α : Type} (cap : FmtCap α) (k : Nat)
    (input inputInd out : List Char)
    (hpre : splitLines inputInd = (splitLines input).map
      (fun l => List.replicate k ' ' ++ l))
    (h0 : minIndent input = 0)
    (hne : splitLines input ≠ [])
    (hcanon : ∀ (f : α) (c n : Nat),
      parse cap.parse inputInd = some (f, c, n) →
      ∀ formatted, cap.render f = some formatted →
        ∀ rest body, seekToBeginning (splitLines formatted) = some rest →
          readLinesUntilEnd rest = some body →
          ∃ l ∈ body, isExclusivelyWhitespace (l.drop n) = false ∧
            leadingWS (l.drop n) = 0)
    (hrun : run cap inputInd = .ok out) :
    (∀ l ∈ splitLines out, l.take k = List.replicate k ' ') ∧
      minIndent out = k := by
  obtain ⟨f, n, formatted, rest, body, hp, hr, hs, he, hout⟩ :=
    run_ok_inversion cap inputInd out hrun
  have hc : minIndent inputInd = k :=
    minIndent_preindent input inputInd k hpre h0 hne
  rw [hc] at hp hout
  have hfree : ∀ b ∈ body, '\n' ∉ b :=
    readLinesUntilEnd_no_newline rest body
      (fun l hl => mem_splitLines_no_newline formatted l
        (seekToBeginning_sublist _ rest hs l hl)) he
  obtain ⟨bm, hbm, hbw, hblw⟩ := hcanon f k n hp formatted hr rest body hs he
  have hbm_ws : isExclusivelyWhitespace bm = false := by
    by_contra hx
    have hx2 : isExclusivelyWhitespace bm = true := by simpa using hx
    have hall : isExclusivelyWhitespace (bm.drop n) = true := by
      unfold isExclusivelyWhitespace at hx2 ⊢
      rw [List.all_eq_true] at hx2 ⊢
      exact fun c hc2 => hx2 c (List.mem_of_mem_drop hc2)
    rw [hall] at hbw
    cases hbw
  have hcore : coreOf n bm = bm.drop n := by
    unfold coreOf
    rw [if_neg (by simp [hbm_ws])]
  have hlines : splitLines out = (finalLinesRev k n body.reverse).reverse := by
    rw [hout, emitBody_eq_flatten]
    conv_lhs =>
      rw [show body = body.reverse.reverse from (List.reverse_reverse body).symm]
    exact splitLines_trim_emit k n body.reverse
      (fun b hb => hfree b (List.mem_reverse.mp hb))
  constructor
  · intro l hl
    rw [hlines] at hl
    exact take_k_mem_finalLinesRev k n body.reverse l (List.mem_reverse.mp hl)
  · rw [minIndent_eq_spec]
    unfold minIndentSpec
    rw [hlines]
    apply minIndentLinesSpec_eq_of
    · intro l hl
      exact Or.inl (le_leadingWS_mem_finalLinesRev k n body.reverse l
        (List.mem_reverse.mp hl))
    · obtain ⟨l2, hm, hprop⟩ := exists_margin_finalLinesRev k n body.reverse
        ⟨bm, List.mem_reverse.mpr hbm, by rw [hcore]; exact hbw,
          by rw [hcore]; exact hblw⟩
      exact ⟨l2, List.mem_reverse.mpr hm, hprop⟩

/-- Witness for C4: the one-line fragment pre-indented by three columns
round-trips through the concrete collaborator to output indented by
exactly three columns, and the Prober recovers 3. -/
theorem run_roundtrip_document_indent_witness :
    (splitLines rtInputInd = (splitLines rtInput).map
        (fun l => List.replicate 3 ' ' ++ l) ∧
      minIndent rtInput = 0 ∧ splitLines rtInput ≠ [] ∧
      run rtCap rtInputInd = .ok "   x := 1".toList) ∧
    ((∀ l ∈ splitLines "   x := 1".toList,
        l.take 3 = List.replicate 3 ' ') ∧
      minIndent "   x := 1".toList = 3) := by
  refine ⟨⟨by decide, by decide, by decide, rfl⟩, ?_⟩
  apply run_roundtrip_document_indent rtCap 3 rtInput rtInputInd
    "   x := 1".toList (by decide) (by decide) (by decide) ?_ rfl
  intro f c n hp formatted hr rest body hs he
  rw [show parse rtCap.parse rtInputInd = some ((), 3, 1) from by decide] at hp
  simp only [Option.some.injEq, Prod.mk.injEq] at hp
  obtain ⟨-, -, hn⟩ := hp
  subst hn
  have hr0 : rtCap.render f = some rtFormatted := rfl
  rw [hr0] at hr
  injection hr with hr2
  subst hr2
  rw [show seekToBeginning (splitLines rtFormatted) =
      some ["\tx := 1".toList, "\t// END".toList, "\x7d".toList]
    from by decide] at hs
  injection hs with hs2
  subst hs2
  rw [show readLinesUntilEnd ["\tx := 1".toList, "\t// END".toList,
      "\x7d".toList] = some ["\tx := 1".toList, []] from by decide] at he
  injection he with he2
  subst he2
  exact ⟨"\tx := 1".toList, by decide, by decide, by decide⟩

end Gofencefmt
